import Mathlib

/-
Verification of the dispatch core of the `load-balancer` repository:
the consistent-hash ring (`internal/hashing`), the connection pool
(`internal/connpool`), the phi-accrual health checker (`internal/health`)
and the dispatcher (`internal/balancer`).

Conventions of the shallow embedding:
* Go strings are embedded as their UTF-8 byte sequences (`List Nat`).
* Go maps are embedded as association lists with unique keys
  (`mapGetD`, `mapSet`, `mapDel`, `mapFind?`); a lookup of a missing key
  yields the zero value, exactly as in Go.
* `time.Duration` / timestamps are embedded as integers (nanoseconds);
  `time.Since(t)` at instant `now` is `now - t`.
* Go's `/` on integers truncates toward zero and is embedded as `Int.tdiv`.
* `float64` arithmetic is idealised as exact rational arithmetic; the
  truncating conversions back to integer types are floors.
* Network effects (dialing, probing) are passed in as explicit oracle
  arguments; closing a connection is modelled by dropping it from the state.
-/

set_option autoImplicit false
set_option maxRecDepth 100000

namespace LB

/-- Go strings, embedded as their UTF-8 byte sequences. -/
abbrev Host := List Nat

/-! ### Association-list model of Go maps -/

/-- Lookup with a default value: `m[k]` in Go yields the zero value `d`
when `k` is absent. -/
def mapGetD {α β : Type} [DecidableEq α] : List (α × β) → α → β → β
  | [], _, d => d
  | (k, v) :: m, a, d => if k = a then v else mapGetD m a d

/-- Lookup returning an `Option`, the `v, ok := m[k]` form. -/
def mapFind? {α β : Type} [DecidableEq α] : List (α × β) → α → Option β
  | [], _ => none
  | (k, v) :: m, a => if k = a then some v else mapFind? m a

/-- Map update `m[k] = v`: replaces the binding of `k` or appends a new one. -/
def mapSet {α β : Type} [DecidableEq α] : List (α × β) → α → β → List (α × β)
  | [], a, b => [(a, b)]
  | (k, v) :: m, a, b => if k = a then (a, b) :: m else (k, v) :: mapSet m a b

/-- Map deletion `delete(m, k)`. -/
def mapDel {α β : Type} [DecidableEq α] : List (α × β) → α → List (α × β)
  | [], _ => []
  | (k, v) :: m, a => if k = a then mapDel m a else (k, v) :: mapDel m a

theorem mapGetD_mapSet_self {α β : Type} [DecidableEq α]
    (m : List (α × β)) (a : α) (b d : β) :
    mapGetD (mapSet m a b) a d = b := by
  induction m with
  | nil => simp [mapSet, mapGetD]
  | cons e m ih =>
    obtain ⟨k, v⟩ := e
    by_cases hk : k = a
    · simp [mapSet, hk, mapGetD]
    · simp [mapSet, hk, mapGetD, ih]

theorem mapGetD_mapSet_ne {α β : Type} [DecidableEq α]
    (m : List (α × β)) (a c : α) (b d : β) (h : c ≠ a) :
    mapGetD (mapSet m a b) c d = mapGetD m c d := by
  induction m with
  | nil => simp [mapSet, mapGetD, if_neg (Ne.symm h)]
  | cons e m ih =>
    obtain ⟨k, v⟩ := e
    by_cases hk : k = a
    · subst hk
      simp [mapSet, mapGetD, if_neg (Ne.symm h)]
    · simp only [mapSet, if_neg hk]
      by_cases hc : k = c
      · simp [mapGetD, hc]
      · simp [mapGetD, hc, ih]

theorem mapFind?_mapSet_self {α β : Type} [DecidableEq α]
    (m : List (α × β)) (a : α) (b : β) :
    mapFind? (mapSet m a b) a = some b := by
  induction m with
  | nil => simp [mapSet, mapFind?]
  | cons e m ih =>
    obtain ⟨k, v⟩ := e
    by_cases hk : k = a
    · simp [mapSet, hk, mapFind?]
    · simp [mapSet, hk, mapFind?, ih]

theorem mapFind?_mapSet_ne {α β : Type} [DecidableEq α]
    (m : List (α × β)) (a c : α) (b : β) (h : c ≠ a) :
    mapFind? (mapSet m a b) c = mapFind? m c := by
  induction m with
  | nil => simp [mapSet, mapFind?, if_neg (Ne.symm h)]
  | cons e m ih =>
    obtain ⟨k, v⟩ := e
    by_cases hk : k = a
    · subst hk
      simp [mapSet, mapFind?, if_neg (Ne.symm h)]
    · simp only [mapSet, if_neg hk]
      by_cases hc : k = c
      · simp [mapFind?, hc]
      · simp [mapFind?, hc, ih]

/-! ### UTF-8 and CRC32 (package `hashing`) -/

/-- UTF-8 encoding of the Unicode scalar value `i`, as produced by Go's
`string(rune(i))`; invalid runes encode the replacement character. -/
def utf8Encode (i : Nat) : List Nat :=
  if i < 0x80 then [i]
  else if i < 0x800 then [0xC0 ||| (i >>> 6), 0x80 ||| (i &&& 0x3F)]
  else if 0xD800 ≤ i ∧ i ≤ 0xDFFF then [0xEF, 0xBF, 0xBD]
  else if i < 0x110000 then
    if i < 0x10000 then
      [0xE0 ||| (i >>> 12), 0x80 ||| ((i >>> 6) &&& 0x3F), 0x80 ||| (i &&& 0x3F)]
    else
      [0xF0 ||| (i >>> 18), 0x80 ||| ((i >>> 12) &&& 0x3F),
       0x80 ||| ((i >>> 6) &&& 0x3F), 0x80 ||| (i &&& 0x3F)]
  else [0xEF, 0xBF, 0xBD]

/-- One bit step of the reflected CRC32 computation with the IEEE polynomial. -/
def crc32Step (crc : Nat) : Nat :=
  if crc % 2 = 1 then (crc >>> 1) ^^^ 0xEDB88320 else crc >>> 1

/-- Iterate `crc32Step`. -/
def crc32Steps : Nat → Nat → Nat
  | 0, c => c
  | n + 1, c => crc32Steps n (crc32Step c)

/-- Fold one byte into the CRC32 state. -/
def crc32Byte (crc b : Nat) : Nat := crc32Steps 8 (crc ^^^ b)

/-- `crc32.ChecksumIEEE` of a byte sequence, the ring's `hashKey`. -/
def crc32 (bs : List Nat) : Nat := (bs.foldl crc32Byte 0xFFFFFFFF) ^^^ 0xFFFFFFFF

/-! ### Consistent-hash ring (`hashing.ConsistentHasher`) -/

/-- State of `hashing.ConsistentHasher`: the hash-to-host map, the list of
virtual-node hashes, and the per-host weights. -/
structure ConsistentHasher where
  hash : List (Nat × Host)
  nodes : List Nat
  weights : List (Host × Nat)
  deriving DecidableEq, Repr

/-- The ring's replication factor (`replicationFactor = 100`). -/
def replicationFactor : Nat := 100

/-- `hashing.New`: the empty ring. -/
def hashingNew : ConsistentHasher := ⟨[], [], []⟩

/-- Insertion into a sorted list, used to model `sort.Slice` on the nodes. -/
def insertSorted (x : Nat) : List Nat → List Nat
  | [] => [x]
  | y :: ys => if x ≤ y then x :: y :: ys else y :: insertSorted x ys

/-- Sorting of the nodes slice ascending (`sort.Slice` in `Add`). -/
def sortNodes (l : List Nat) : List Nat := l.foldr insertSorted []

/-- `ConsistentHasher.Add`: record the weight, insert `100·weight` virtual
nodes keyed by `hashKey(node + string(rune(i)))`, and re-sort the node list. -/
def ringAdd (c : ConsistentHasher) (node : Host) (weight : Nat) : ConsistentHasher :=
  let c1 := { c with weights := mapSet c.weights node weight }
  let c2 := (List.range (replicationFactor * weight)).foldl
    (fun c i =>
      let h := crc32 (node ++ utf8Encode i)
      { c with hash := mapSet c.hash h node, nodes := c.nodes ++ [h] }) c1
  { c2 with nodes := sortNodes c2.nodes }

/-- `ConsistentHasher.Remove`: read the recorded weight, delete the weight
record, delete the `100·weight` virtual hashes from the hash map, then rebuild
the node list keeping every `v` with `c.hash[v] != node` — where the lookup is
performed on the already-deleted map, a missing key yielding the zero value. -/
def ringRemove (c : ConsistentHasher) (node : Host) : ConsistentHasher :=
  let weight := mapGetD c.weights node 0
  let c1 := { c with weights := mapDel c.weights node }
  let c2 := (List.range (replicationFactor * weight)).foldl
    (fun c i => { c with hash := mapDel c.hash (crc32 (node ++ utf8Encode i)) }) c1
  { c2 with nodes := c2.nodes.filter (fun v => mapGetD c2.hash v [] ≠ node) }

/-- Go's `sort.Search` loop: binary search for the least index in `[i, j)`
satisfying `f`, with explicit fuel bounding the iteration count. -/
def sortSearchGo (f : Nat → Bool) : Nat → Nat → Nat → Nat
  | 0, i, _ => i
  | fuel + 1, i, j =>
    if i < j then
      let h := (i + j) / 2
      if f h then sortSearchGo f fuel i h else sortSearchGo f fuel (h + 1) j
    else i

/-- `ConsistentHasher.Get`: empty host for an empty ring, otherwise the host
mapped to the first node hash `≥ hash(key)`, wrapping to index 0. -/
def ringGet (c : ConsistentHasher) (key : Host) : Host :=
  if c.nodes.length = 0 then [] else
    let h := crc32 key
    let idx0 := sortSearchGo (fun i => decide (h ≤ c.nodes.getD i 0)) c.nodes.length 0 c.nodes.length
    let idx := if idx0 = c.nodes.length then 0 else idx0
    mapGetD c.hash (c.nodes.getD idx 0) []

/-! ### Connection pool (`connpool.Pool`) -/

/-- `config.PoolConfig`, the pool's configuration values. -/
structure PoolConfig where
  maxIdle : Int
  maxActive : Int
  idleTimeout : Int
  deriving DecidableEq, Repr

/-- A network connection, identified by the address it is connected to
(its `RemoteAddr().String()`) and a dial identifier. -/
structure Conn where
  addr : String
  id : Nat
  deriving DecidableEq, Repr

/-- `connpool.idleConn`: a cached connection with its insertion instant. -/
structure IdleConn where
  conn : Conn
  timeAdded : Int
  deriving DecidableEq, Repr

/-- State of `connpool.Pool`: configuration, the `active` counter and the
per-address idle buckets. -/
structure Pool where
  maxIdle : Int
  maxActive : Int
  idleTimeout : Int
  active : Int
  idle : List (String × List IdleConn)
  deriving DecidableEq, Repr

/-- `connpool.New`: fails when `MaxIdle <= 0 || MaxActive <= 0`, otherwise
returns the fresh pool. `IdleTimeout` is copied without validation. -/
def poolNew (cfg : PoolConfig) : Option Pool :=
  if cfg.maxIdle ≤ 0 ∨ cfg.maxActive ≤ 0 then none
  else some { maxIdle := cfg.maxIdle, maxActive := cfg.maxActive,
              idleTimeout := cfg.idleTimeout, active := 0, idle := [] }

/-- `Pool.createConn`: error when `active >= maxActive`; otherwise attempt the
dial (`dial = none` models a dial failure) and on success increment `active`.
The second component is the returned connection, `none` meaning an error. -/
def createConn (p : Pool) (addr : String) (dial : Option Nat) : Pool × Option Conn :=
  if p.maxActive ≤ p.active then (p, none)
  else
    match dial with
    | none => (p, none)
    | some cid => ({ p with active := p.active + 1 }, some ⟨addr, cid⟩)

/-- `Pool.Get`: pop the most recent idle entry for `addr` if any; a stale one
(age strictly above `idleTimeout`) is closed and replaced by a fresh dial,
a fresh one is returned after incrementing `active`; with no idle entry,
fall through to `createConn`. -/
def poolGet (p : Pool) (addr : String) (now : Int) (dial : Option Nat) : Pool × Option Conn :=
  match (mapGetD p.idle addr []).getLast? with
  | some ic =>
    if p.idleTimeout < now - ic.timeAdded then
      createConn { p with idle := mapSet p.idle addr (mapGetD p.idle addr []).dropLast } addr dial
    else
      ({ p with idle := mapSet p.idle addr (mapGetD p.idle addr []).dropLast,
                active := p.active + 1 }, some ic.conn)
  | none => createConn p addr dial

/-- `Pool.Put`: error (`some` message) when `active <= 0`; otherwise decrement
`active` and either close the connection (bucket of its remote address already
at `maxIdle`) or append it to that bucket with insertion time `now`. -/
def poolPut (p : Pool) (conn : Conn) (now : Int) : Pool × Option String :=
  if p.active ≤ 0 then (p, some "connection not from pool")
  else if p.maxIdle ≤ ((mapGetD p.idle conn.addr []).length : Int) then
    ({ p with active := p.active - 1 }, none)
  else
    ({ p with active := p.active - 1,
              idle := mapSet p.idle conn.addr (mapGetD p.idle conn.addr [] ++ [⟨conn, now⟩]) },
      none)

/-- `Pool.Close`: close every idle connection, drop every bucket, return nil. -/
def poolClose (p : Pool) : Pool × Option String :=
  ({ p with idle := [] }, none)

/-- Transform every bucket of an association list by `g` and delete buckets
that come out empty — the shape of one pass of the pool's cleanup loop. -/
def cleanBuckets {α β : Type} (g : List β → List β) (m : List (α × List β)) :
    List (α × List β) :=
  (m.map (fun b => (b.1, g b.2))).filter (fun b => !b.2.isEmpty)

/-- One pass of the `Pool.cleanup` ticker body: filter out entries whose age
strictly exceeds `idleTimeout` and delete buckets that become empty. -/
def cleanupStep (p : Pool) (now : Int) : Pool :=
  { p with idle := cleanBuckets (fun l => l.filter (fun ic => !decide (p.idleTimeout < now - ic.timeAdded))) p.idle }

/-- Pool states reachable from a successful `connpool.New` by any finite
sequence of `Get`, `Put`, `Close` and cleanup passes. -/
inductive PoolReach : Pool → Prop
  | init (cfg : PoolConfig) (p : Pool) : poolNew cfg = some p → PoolReach p
  | get (p : Pool) (addr : String) (now : Int) (dial : Option Nat) :
      PoolReach p → PoolReach (poolGet p addr now dial).1
  | put (p : Pool) (conn : Conn) (now : Int) :
      PoolReach p → PoolReach (poolPut p conn now).1
  | close (p : Pool) : PoolReach p → PoolReach (poolClose p).1
  | cleanup (p : Pool) (now : Int) : PoolReach p → PoolReach (cleanupStep p now)

/-! ### Key-uniqueness and bucket lemmas for the pool invariant -/

/-- The keys of an association list. -/
def keysOf {α β : Type} (m : List (α × β)) : List α := m.map Prod.fst

theorem mem_keysOf_mapSet {α β : Type} [DecidableEq α]
    (m : List (α × β)) (a c : α) (b : β) :
    c ∈ keysOf (mapSet m a b) ↔ c ∈ keysOf m ∨ c = a := by
  induction m with
  | nil => simp [mapSet, keysOf]
  | cons e m ih =>
    obtain ⟨k, v⟩ := e
    by_cases hk : k = a
    · subst hk
      simp [mapSet, keysOf]
      tauto
    · simp only [mapSet, if_neg hk, keysOf, List.map_cons, List.mem_cons]
      simp only [keysOf] at ih
      rw [ih]
      tauto

theorem nodup_keysOf_mapSet {α β : Type} [DecidableEq α]
    (m : List (α × β)) (a : α) (b : β) (h : (keysOf m).Nodup) :
    (keysOf (mapSet m a b)).Nodup := by
  induction m with
  | nil => simp [mapSet, keysOf]
  | cons e m ih =>
    obtain ⟨k, v⟩ := e
    simp only [keysOf, List.map_cons, List.nodup_cons] at h
    by_cases hk : k = a
    · subst hk
      simpa [mapSet, keysOf, List.nodup_cons] using h
    · simp only [mapSet, if_neg hk, keysOf, List.map_cons, List.nodup_cons]
      refine ⟨fun hc => ?_, ih h.2⟩
      rcases (mem_keysOf_mapSet m a k b).1 hc with hm | he
      · exact h.1 hm
      · exact hk he

theorem mapGetD_eq_default_of_not_mem {α β : Type} [DecidableEq α]
    (m : List (α × β)) (a : α) (d : β) (h : a ∉ keysOf m) :
    mapGetD m a d = d := by
  induction m with
  | nil => rfl
  | cons e m ih =>
    obtain ⟨k, v⟩ := e
    simp only [keysOf, List.map_cons, List.mem_cons] at h
    push_neg at h
    simp only [mapGetD, if_neg (fun (hk : k = a) => h.1 hk.symm)]
    exact ih h.2

theorem keysOf_cleanBuckets_subset {α β : Type} (g : List β → List β)
    (m : List (α × List β)) : ∀ c, c ∈ keysOf (cleanBuckets g m) → c ∈ keysOf m := by
  intro c hc
  simp only [keysOf, cleanBuckets, List.mem_map] at hc ⊢
  obtain ⟨b, hb, hbc⟩ := hc
  have hb2 := List.mem_of_mem_filter hb
  simp only [List.mem_map] at hb2
  obtain ⟨e, he, hee⟩ := hb2
  exact ⟨e, he, by rw [← hee] at hbc; exact hbc⟩

theorem nodup_keysOf_cleanBuckets {α β : Type} (g : List β → List β)
    (m : List (α × List β)) (h : (keysOf m).Nodup) :
    (keysOf (cleanBuckets g m)).Nodup := by
  have h1 : List.Sublist (keysOf (cleanBuckets g m)) (keysOf (m.map (fun b => (b.1, g b.2)))) :=
    List.Sublist.map Prod.fst (List.filter_sublist _)
  have h2 : keysOf (m.map (fun b => (b.1, g b.2))) = keysOf m := by
    simp only [keysOf, List.map_map]
    rfl
  exact List.Nodup.sublist (h2 ▸ h1) h

theorem mapGetD_cleanBuckets_not_mem {α β : Type} [DecidableEq α]
    (g : List β → List β) (m : List (α × List β)) (a : α) (h : a ∉ keysOf m) :
    mapGetD (cleanBuckets g m) a [] = [] := by
  apply mapGetD_eq_default_of_not_mem
  intro hc
  exact h (keysOf_cleanBuckets_subset g m a hc)

theorem mapGetD_cleanBuckets {α β : Type} [DecidableEq α]
    (g : List β → List β) (hg : g [] = []) (m : List (α × List β)) (a : α)
    (h : (keysOf m).Nodup) :
    mapGetD (cleanBuckets g m) a [] = g (mapGetD m a []) := by
  induction m with
  | nil => simp [cleanBuckets, mapGetD, hg]
  | cons e m ih =>
    obtain ⟨k, v⟩ := e
    simp only [keysOf, List.map_cons, List.nodup_cons] at h
    by_cases hk : k = a
    · subst hk
      by_cases hv : g v = []
      · have h1 : mapGetD (cleanBuckets g ((k, v) :: m)) k [] =
            mapGetD (cleanBuckets g m) k [] := by
          simp [cleanBuckets, List.filter_cons, hv]
        rw [h1, mapGetD_cleanBuckets_not_mem g m k h.1]
        simp [mapGetD, hv]
      · have h1 : mapGetD (cleanBuckets g ((k, v) :: m)) k [] = g v := by
          simp [cleanBuckets, List.filter_cons, List.isEmpty_iff, hv, mapGetD]
        rw [h1]
        simp [mapGetD]
    · have h2 : mapGetD ((k, v) :: m) a [] = mapGetD m a [] := by
        simp [mapGetD, hk]
      rw [h2, ← ih h.2]
      by_cases hv : g v = []
      · simp [cleanBuckets, List.filter_cons, hv]
      · have h3 : cleanBuckets g ((k, v) :: m) = (k, g v) :: cleanBuckets g m := by
          simp [cleanBuckets, List.filter_cons, List.isEmpty_iff, hv]
        rw [h3]
        simp [mapGetD, hk]

/-! ### The pool invariant (claim C8) -/

/-- Invariant carried by every reachable pool state: bucket keys are unique,
`maxIdle` is positive, and every idle bucket holds at most `maxIdle` entries. -/
def poolInv (p : Pool) : Prop :=
  (keysOf p.idle).Nodup ∧ 0 < p.maxIdle ∧
    ∀ a : String, ((mapGetD p.idle a []).length : Int) ≤ p.maxIdle

theorem createConn_idle (p : Pool) (addr : String) (dial : Option Nat) :
    (createConn p addr dial).1.idle = p.idle ∧
    (createConn p addr dial).1.maxIdle = p.maxIdle := by
  unfold createConn
  split_ifs with h
  · exact ⟨rfl, rfl⟩
  · cases dial <;> exact ⟨rfl, rfl⟩

theorem dropLast_length_le {β : Type} (l : List β) :
    ((l.dropLast.length : Int)) ≤ (l.length : Int) := by
  rw [List.length_dropLast]
  omega

theorem poolInv_set_dropLast (p : Pool) (addr : String) (h : poolInv p) :
    poolInv { p with idle := mapSet p.idle addr (mapGetD p.idle addr []).dropLast } := by
  obtain ⟨hnd, hpos, hb⟩ := h
  refine ⟨nodup_keysOf_mapSet _ _ _ hnd, hpos, fun a => ?_⟩
  by_cases ha : a = addr
  · subst ha
    simp only [mapGetD_mapSet_self]
    exact le_trans (dropLast_length_le _) (hb a)
  · simp only [mapGetD_mapSet_ne _ _ _ _ _ ha]
    exact hb a

theorem poolNew_poolInv (cfg : PoolConfig) (p : Pool) (hp : poolNew cfg = some p) :
    poolInv p := by
  unfold poolNew at hp
  by_cases hc : cfg.maxIdle ≤ 0 ∨ cfg.maxActive ≤ 0
  · rw [if_pos hc] at hp
    cases hp
  · rw [if_neg hc] at hp
    push_neg at hc
    injection hp with hp
    subst hp
    refine ⟨by simp [keysOf], ?_, ?_⟩
    · show (0 : Int) < cfg.maxIdle
      omega
    · intro a
      show ((mapGetD ([] : List (String × List IdleConn)) a []).length : Int) ≤ cfg.maxIdle
      simp [mapGetD]
      omega

theorem createConn_poolInv (p : Pool) (addr : String) (dial : Option Nat)
    (h : poolInv p) : poolInv (createConn p addr dial).1 := by
  unfold createConn
  split_ifs with h1
  · exact h
  · cases dial with
    | none => exact h
    | some cid => exact h

theorem poolGet_poolInv (p : Pool) (addr : String) (now : Int) (dial : Option Nat)
    (h : poolInv p) : poolInv (poolGet p addr now dial).1 := by
  unfold poolGet
  split
  · split_ifs with hstale
    · exact createConn_poolInv _ addr dial (poolInv_set_dropLast p addr h)
    · exact poolInv_set_dropLast p addr h
  · exact createConn_poolInv p addr dial h

theorem poolPut_poolInv (p : Pool) (conn : Conn) (now : Int)
    (h : poolInv p) : poolInv (poolPut p conn now).1 := by
  obtain ⟨hnd, hpos, hb⟩ := h
  unfold poolPut
  split_ifs with h1 h2
  · exact ⟨hnd, hpos, hb⟩
  · exact ⟨hnd, hpos, hb⟩
  · push_neg at h2
    refine ⟨nodup_keysOf_mapSet _ _ _ hnd, hpos, ?_⟩
    intro a
    show ((mapGetD (mapSet p.idle conn.addr (mapGetD p.idle conn.addr [] ++ [⟨conn, now⟩])) a []).length : Int) ≤ p.maxIdle
    by_cases ha : a = conn.addr
    · subst ha
      simp only [mapGetD_mapSet_self, List.length_append, List.length_cons, List.length_nil]
      push_cast
      omega
    · simp only [mapGetD_mapSet_ne _ _ _ _ _ ha]
      exact hb a

theorem poolClose_poolInv (p : Pool) (h : poolInv p) : poolInv (poolClose p).1 := by
  obtain ⟨_, hpos, _⟩ := h
  refine ⟨by simp [poolClose, keysOf], hpos, ?_⟩
  intro a
  show ((mapGetD ([] : List (String × List IdleConn)) a []).length : Int) ≤ p.maxIdle
  simp [mapGetD]
  omega

theorem cleanupStep_poolInv (p : Pool) (now : Int) (h : poolInv p) :
    poolInv (cleanupStep p now) := by
  obtain ⟨hnd, hpos, hb⟩ := h
  refine ⟨nodup_keysOf_cleanBuckets _ _ hnd, hpos, ?_⟩
  intro a
  show ((mapGetD (cleanBuckets (fun l => l.filter (fun ic => !decide (p.idleTimeout < now - ic.timeAdded))) p.idle) a []).length : Int) ≤ p.maxIdle
  rw [mapGetD_cleanBuckets _ rfl _ _ hnd]
  calc (((mapGetD p.idle a []).filter _).length : Int)
      ≤ ((mapGetD p.idle a []).length : Int) := by
        exact_mod_cast List.length_filter_le _ _
    _ ≤ p.maxIdle := hb a

theorem poolReach_inv (p : Pool) (h : PoolReach p) : poolInv p := by
  induction h with
  | init cfg p hp => exact poolNew_poolInv cfg p hp
  | get p addr now dial _ ih => exact poolGet_poolInv p addr now dial ih
  | put p conn now _ ih => exact poolPut_poolInv p conn now ih
  | close p _ ih => exact poolClose_poolInv p ih
  | cleanup p now _ ih => exact cleanupStep_poolInv p now ih

/-- C8: after any sequence of pool operations starting from a freshly
constructed pool, every idle bucket holds at most `maxIdle` entries. -/
theorem pool_idle_cap (p : Pool) (h : PoolReach p) (addr : String) :
    ((mapGetD p.idle addr []).length : Int) ≤ p.maxIdle :=
  (poolReach_inv p h).2.2 addr

/-- Witness for `pool_idle_cap`: the bound at a concrete reachable pool. -/
theorem pool_idle_cap_witness :
    ((mapGetD (Pool.mk 2 3 60 0 []).idle "x" []).length : Int) ≤ (Pool.mk 2 3 60 0 []).maxIdle :=
  pool_idle_cap _ (PoolReach.init ⟨2, 3, 60⟩ _ (by decide)) "x"

/-! ### Claim C1: the `active` counter versus `maxActive` -/

/-- C1 counterexample: with `maxIdle = maxActive = 1`, the sequence
Get "A" (dial), Put, Get "B" (dial), Get "A" (fresh idle pop) drives
`active` to 2, strictly above `maxActive`: the idle-pop path of `Get`
increments `active` without consulting the cap. -/
theorem get_can_exceed_maxActive :
    poolNew ⟨1, 1, 60⟩ = some (Pool.mk 1 1 60 0 []) ∧
    (poolGet (poolGet (poolPut (poolGet (Pool.mk 1 1 60 0 []) "A" 0 (some 0)).1 ⟨"A", 0⟩ 0).1 "B" 0 (some 1)).1 "A" 0 (some 2)).1.maxActive
      < (poolGet (poolGet (poolPut (poolGet (Pool.mk 1 1 60 0 []) "A" 0 (some 0)).1 ⟨"A", 0⟩ 0).1 "B" 0 (some 1)).1 "A" 0 (some 2)).1.active := by
  decide

/-- C1 amended: the dial path (`createConn`) never raises `active` above
`maxActive` — it increments only under `active < maxActive` — while a `Get`
as a whole can raise `active` at most one beyond the larger of the previous
`active` and `maxActive`, the unconditional increment coming from the
fresh-idle-pop path. -/
theorem get_active_bounds (p : Pool) (addr : String) (now : Int) (dial : Option Nat) :
    (createConn p addr dial).1.active ≤ max p.active p.maxActive ∧
    (poolGet p addr now dial).1.active ≤ max (p.active + 1) p.maxActive := by
  constructor
  · unfold createConn
    split_ifs with h1
    · simp
    · cases dial with
      | none => simp
      | some cid =>
        simp
        omega
  · unfold poolGet
    split
    · split_ifs with hstale
      · unfold createConn
        split_ifs with h1
        · simp
        · cases dial with
          | none => simp
          | some cid => simp
      · simp
    · unfold createConn
      split_ifs with h1
      · simp
      · cases dial with
        | none => simp
        | some cid => simp

/-! ### Claim C7: pool construction validation -/

/-- C7 counterexample: `connpool.New` accepts `idleTimeout = 0` as long as
`maxIdle` and `maxActive` are positive, while the claim demands failure. -/
theorem poolNew_accepts_nonpositive_idleTimeout :
    (poolNew ⟨1, 1, 0⟩).isSome = true := by
  decide

/-- C7 amended: pool construction succeeds exactly when `maxIdle > 0` and
`maxActive > 0`; `idleTimeout` is not validated by `connpool.New`. -/
theorem poolNew_some_iff (cfg : PoolConfig) :
    (poolNew cfg).isSome = true ↔ (0 < cfg.maxIdle ∧ 0 < cfg.maxActive) := by
  unfold poolNew
  split_ifs with h
  · simp only [Option.isSome_none, Bool.false_eq_true, false_iff]
    omega
  · simp only [Option.isSome_some, true_iff]
    omega

/-! ### Claim C10: `Pool.Close` frame conditions -/

/-- C10: `Pool.Close` empties every idle bucket, changes no other field
(`active`, `maxIdle`, `maxActive`, `idleTimeout` are untouched) and returns
nil; the resulting state is exactly the same pool with empty idle buckets, so
every subsequent `Get` or `Put` behaves as on that pool. -/
theorem poolClose_frame (p : Pool) :
    poolClose p = ({ p with idle := [] }, none) :=
  rfl

/-! ### Phi-accrual health checker (`health.Checker`) -/

/-- The checker's circular-buffer capacity (`sampleSize = 1000`). -/
def sampleSize : Nat := 1000

/-- State of `health.history`: the circular buffer of check durations
(in nanoseconds), write index, live-sample count and cached statistics. -/
structure History where
  times : List Int
  index : Nat
  count : Nat
  mean : Int
  stdDev : Int
  deriving DecidableEq, Repr

/-- The history allocated on a host's first successful check:
`make([]time.Duration, sampleSize)` and zero counters. -/
def initHistory : History :=
  ⟨List.replicate sampleSize 0, 0, 0, 0, 0⟩

/-- Floor of the real square root of a nonnegative rational, the composition
of `math.Sqrt` (idealised as the exact square root) with the truncating
conversion `time.Duration(...)`. -/
def ratSqrtFloor (x : ℚ) : Int :=
  ((Nat.sqrt (x.num.toNat * x.den) / x.den : Nat) : Int)

/-- The live samples summed by `updateStats`: `h.times[0:h.count]`. -/
def liveTimes (h : History) : List Int := h.times.take h.count

/-- The mean computed by `updateStats`: integer (duration) division of the
live sum by the count, truncating like Go's `/`. -/
def meanOf (h : History) : Int := (liveTimes h).sum.tdiv h.count

/-- The sum of squared deviations computed by `updateStats`, with `float64`
arithmetic idealised as exact rationals. -/
def sumSquaresOf (h : History) (mean : Int) : ℚ :=
  ((liveTimes h).map (fun d => ((d : ℚ) - (mean : ℚ)) ^ 2)).sum

/-- `history.updateStats`: a no-op on an empty history, otherwise recompute
`mean` and `stdDev` from the `count` live samples. -/
def updateStats (h : History) : History :=
  if h.count = 0 then h
  else { h with mean := meanOf h,
                stdDev := ratSqrtFloor (sumSquaresOf h (meanOf h) / (h.count : ℚ)) }

/-- The per-history part of `Checker.recordSuccess`: write the duration at
`index`, advance `index` modulo `sampleSize`, saturate `count` at
`sampleSize`, then recompute the statistics. -/
def recordSuccessH (h : History) (d : Int) : History :=
  updateStats { h with times := h.times.set h.index d,
                       index := (h.index + 1) % sampleSize,
                       count := if h.count < sampleSize then h.count + 1 else h.count }

/-- A fresh history fed the durations `ds` in order, one `recordSuccess`
per element. -/
def recordSuccList (ds : List Int) : History := ds.foldl recordSuccessH initHistory

/-- The population variance of samples `ds` around `mean`, the quantity
`updateStats` feeds to the square root. -/
def popVariance (ds : List Int) (mean : Int) : ℚ :=
  ((ds.map (fun d => ((d : ℚ) - (mean : ℚ)) ^ 2)).sum) / (ds.length : ℚ)

theorem updateStats_buffer (h : History) :
    (updateStats h).times = h.times ∧ (updateStats h).index = h.index ∧
      (updateStats h).count = h.count := by
  unfold updateStats
  split_ifs <;> exact ⟨rfl, rfl, rfl⟩

theorem set_append_length {α : Type} (l1 l2 : List α) (a : α) :
    (l1 ++ l2).set l1.length a = l1 ++ l2.set 0 a := by
  induction l1 with
  | nil => simp
  | cons x l1 ih => simp [ih]

theorem recordSuccList_buffer (ds : List Int) (hlen : ds.length ≤ sampleSize) :
    (recordSuccList ds).times = ds ++ List.replicate (sampleSize - ds.length) 0 ∧
    (recordSuccList ds).index = ds.length % sampleSize ∧
    (recordSuccList ds).count = ds.length := by
  induction ds using List.reverseRecOn with
  | nil => exact ⟨rfl, rfl, rfl⟩
  | append_singleton l d ih =>
    have hlt : l.length < sampleSize := by
      rw [List.length_append, List.length_cons, List.length_nil] at hlen
      omega
    obtain ⟨ht, hi, hc⟩ := ih (le_of_lt hlt)
    have hfold : recordSuccList (l ++ [d]) = recordSuccessH (recordSuccList l) d :=
      List.foldl_concat _ _ _ _
    rw [hfold]
    unfold recordSuccessH
    obtain ⟨ht2, hi2, hc2⟩ := updateStats_buffer _
    rw [ht2, hi2, hc2]
    refine ⟨?_, ?_, ?_⟩
    · show (recordSuccList l).times.set (recordSuccList l).index d =
        (l ++ [d]) ++ List.replicate (sampleSize - (l ++ [d]).length) 0
      rw [ht, hi, Nat.mod_eq_of_lt hlt, set_append_length]
      have hrep : sampleSize - l.length = (sampleSize - (l ++ [d]).length) + 1 := by
        rw [List.length_append, List.length_cons, List.length_nil]
        omega
      rw [hrep, List.replicate_succ]
      simp
    · show ((recordSuccList l).index + 1) % sampleSize = (l ++ [d]).length % sampleSize
      rw [hi, Nat.mod_eq_of_lt hlt, List.length_append, List.length_cons, List.length_nil]
    · show (if (recordSuccList l).count < sampleSize then (recordSuccList l).count + 1
          else (recordSuccList l).count) = (l ++ [d]).length
      rw [hc, if_pos hlt, List.length_append, List.length_cons, List.length_nil]

theorem recordSuccList_stats (ds : List Int) (hne : ds ≠ []) (hlen : ds.length ≤ sampleSize) :
    (recordSuccList ds).mean = ds.sum.tdiv ds.length ∧
    (recordSuccList ds).stdDev = ratSqrtFloor (popVariance ds (ds.sum.tdiv ds.length)) := by
  obtain ⟨l, d, rfl⟩ : ∃ l d, ds = l ++ [d] := by
    rcases List.eq_nil_or_concat ds with h | ⟨l, d, h⟩
    · exact absurd h hne
    · exact ⟨l, d, by rw [h, List.concat_eq_append]⟩
  have hfold : recordSuccList (l ++ [d]) = recordSuccessH (recordSuccList l) d :=
    List.foldl_concat _ _ _ _
  set B : History :=
    { recordSuccList l with
        times := (recordSuccList l).times.set (recordSuccList l).index d,
        index := ((recordSuccList l).index + 1) % sampleSize,
        count := if (recordSuccList l).count < sampleSize then (recordSuccList l).count + 1
          else (recordSuccList l).count } with hB
  have hfold2 : recordSuccList (l ++ [d]) = updateStats B := hfold
  have hub := updateStats_buffer B
  have hb := recordSuccList_buffer (l ++ [d]) hlen
  have hBt : B.times = (l ++ [d]) ++ List.replicate (sampleSize - (l ++ [d]).length) 0 := by
    rw [← hub.1, ← hfold2]
    exact hb.1
  have hBc : B.count = (l ++ [d]).length := by
    rw [← hub.2.2, ← hfold2]
    exact hb.2.2
  have hcount0 : ¬ B.count = 0 := by
    rw [hBc, List.length_append, List.length_cons, List.length_nil]
    omega
  have hlive : liveTimes B = l ++ [d] := by
    unfold liveTimes
    rw [hBt, hBc, List.take_left]
  rw [hfold2]
  unfold updateStats
  rw [if_neg hcount0]
  constructor
  · show meanOf B = (l ++ [d]).sum.tdiv (l ++ [d]).length
    unfold meanOf
    rw [hlive, hBc]
  · show ratSqrtFloor (sumSquaresOf B (meanOf B) / (B.count : ℚ)) =
      ratSqrtFloor (popVariance (l ++ [d]) ((l ++ [d]).sum.tdiv (l ++ [d]).length))
    unfold sumSquaresOf meanOf popVariance
    rw [hlive, hBc]

theorem ratSqrtFloor_bounds (x : ℚ) (hx : 0 ≤ x) :
    ((ratSqrtFloor x : Int) : ℚ) ^ 2 ≤ x ∧ x < (((ratSqrtFloor x : Int) : ℚ) + 1) ^ 2 := by
  set N : ℕ := x.num.toNat with hN
  set D : ℕ := x.den with hD
  have hD0 : 0 < D := x.pos
  have hD0Q : (0 : ℚ) < (D : ℚ) := by exact_mod_cast hD0
  have hxND : x = ((N : ℚ)) / (D : ℚ) := by
    rw [hN, hD]
    rw [show ((x.num.toNat : ℕ) : ℚ) = ((x.num.toNat : Int) : ℚ) by push_cast; ring]
    rw [Int.toNat_of_nonneg (Rat.num_nonneg.mpr hx)]
    exact (Rat.num_div_den x).symm
  set r : ℕ := Nat.sqrt (N * D) with hr
  set s : ℕ := r / D with hs
  have hfloor : ratSqrtFloor x = (s : Int) := rfl
  have hsD : s * D ≤ r := Nat.div_mul_le_self r D
  have hr2 : r * r ≤ N * D := Nat.sqrt_le (N * D)
  have key1 : s * s * D ≤ N := by
    have h1 : (s * D) * (s * D) ≤ r * r := Nat.mul_le_mul hsD hsD
    have h2 : s * s * D * D ≤ N * D := by nlinarith
    exact Nat.le_of_mul_le_mul_right (by nlinarith) hD0
  have hmlt : r % D < D := Nat.mod_lt r hD0
  have hmod2 : s * D + r % D = r := by
    have hdm := Nat.div_add_mod r D
    calc s * D + r % D = D * (r / D) + r % D := by rw [hs, Nat.mul_comm]
      _ = r := hdm
  have hrsD : r + 1 ≤ (s + 1) * D := by nlinarith
  have hND : N * D < (r + 1) * (r + 1) := Nat.lt_succ_sqrt (N * D)
  have key2 : N < (s + 1) * (s + 1) * D := by
    have h4 : (r + 1) * (r + 1) ≤ ((s + 1) * D) * ((s + 1) * D) := Nat.mul_le_mul hrsD hrsD
    exact Nat.lt_of_mul_lt_mul_right (by nlinarith : N * D < ((s + 1) * (s + 1) * D) * D)
  rw [hfloor, hxND]
  constructor
  · rw [le_div_iff₀ hD0Q]
    calc ((s : Int) : ℚ) ^ 2 * (D : ℚ) = ((s * s * D : ℕ) : ℚ) := by push_cast; ring
      _ ≤ ((N : ℕ) : ℚ) := by exact_mod_cast key1
  · rw [div_lt_iff₀ hD0Q]
    calc ((N : ℕ) : ℚ) < (((s + 1) * (s + 1) * D : ℕ) : ℚ) := by exact_mod_cast key2
      _ = (((s : Int) : ℚ) + 1) ^ 2 * (D : ℚ) := by push_cast; ring

/-- C5: after feeding a fresh history any nonempty sequence of at most
`sampleSize` nonnegative durations through `recordSuccess`, the cached
`count` equals the number of samples, the cached `mean` is the sample mean
up to Go's truncating integer division (it is the floor of `(Σ dᵢ)/n`), and
the cached `stdDev` is the population standard deviation up to the final
truncation to an integer nanosecond count (its square brackets the variance
`Σ (dᵢ − mean)² / n`). This covers the state after every `recordSuccess`
call, each prefix of a call sequence being such a sequence. -/
theorem recordSuccess_stats (ds : List Int) (hne : ds ≠ [])
    (hlen : ds.length ≤ sampleSize) (hpos : ∀ d ∈ ds, 0 ≤ d) :
    (recordSuccList ds).count = ds.length ∧
    (ds.length : Int) * (recordSuccList ds).mean ≤ ds.sum ∧
    ds.sum < (ds.length : Int) * ((recordSuccList ds).mean + 1) ∧
    (((recordSuccList ds).stdDev : Int) : ℚ) ^ 2 ≤ popVariance ds (recordSuccList ds).mean ∧
    popVariance ds (recordSuccList ds).mean < ((((recordSuccList ds).stdDev : Int) : ℚ) + 1) ^ 2 := by
  obtain ⟨hmean, hstd⟩ := recordSuccList_stats ds hne hlen
  have hcount := (recordSuccList_buffer ds hlen).2.2
  have hn0 : 0 < ds.length := List.length_pos.mpr hne
  have hnInt : (0 : Int) < (ds.length : Int) := by exact_mod_cast hn0
  have hsum : (0 : Int) ≤ ds.sum := List.sum_nonneg hpos
  have hdiv : (ds.length : Int) * (ds.sum.tdiv ds.length) ≤ ds.sum ∧
      ds.sum < (ds.length : Int) * (ds.sum.tdiv ds.length + 1) := by
    rw [Int.tdiv_eq_ediv hsum (by omega)]
    have h1 := Int.ediv_add_emod ds.sum (ds.length : Int)
    have h2 := Int.emod_nonneg ds.sum (by omega : (ds.length : Int) ≠ 0)
    have h3 := Int.emod_lt_of_pos ds.sum hnInt
    constructor <;> nlinarith
  have hvar : 0 ≤ popVariance ds (recordSuccList ds).mean := by
    unfold popVariance
    apply div_nonneg
    · apply List.sum_nonneg
      intro q hq
      simp only [List.mem_map] at hq
      obtain ⟨d, _, rfl⟩ := hq
      positivity
    · positivity
  have hsq := ratSqrtFloor_bounds (popVariance ds (recordSuccList ds).mean) hvar
  refine ⟨hcount, ?_, ?_, ?_, ?_⟩
  · rw [hmean]
    exact hdiv.1
  · rw [hmean]
    exact hdiv.2
  · have : (recordSuccList ds).stdDev = ratSqrtFloor (popVariance ds (recordSuccList ds).mean) := by
      rw [hstd, hmean]
    rw [this]
    exact hsq.1
  · have : (recordSuccList ds).stdDev = ratSqrtFloor (popVariance ds (recordSuccList ds).mean) := by
      rw [hstd, hmean]
    rw [this]
    exact hsq.2

/-! ### Checker state: `phi`, `IsHealthy`, record operations (claims C9, C3) -/

/-- State of `health.Checker`: configuration plus the per-host histories and
`lastCheck` timestamps. -/
structure Checker where
  interval : Int
  phiThreshold : ℚ
  histories : List (Host × History)
  lastCheck : List (Host × Int)
  deriving DecidableEq

/-- `health.New`: substitute the default threshold `8.0` for a nonpositive
argument; histories and lastCheck start empty. -/
def healthNew (interval : Int) (phiThreshold : ℚ) : Checker :=
  { interval := interval,
    phiThreshold := if phiThreshold ≤ 0 then 8 else phiThreshold,
    histories := [], lastCheck := [] }

/-- `Checker.recordSuccess`: create the host's history on first success,
stamp `lastCheck`, then append the duration to the history. -/
def recordSuccessC (c : Checker) (host : Host) (dur now : Int) : Checker :=
  let c1 := match mapFind? c.histories host with
    | some _ => c
    | none => { c with histories := mapSet c.histories host initHistory }
  let c2 := { c1 with lastCheck := mapSet c1.lastCheck host now }
  match mapFind? c2.histories host with
  | some h => { c2 with histories := mapSet c2.histories host (recordSuccessH h dur) }
  | none => c2

/-- `Checker.recordFailure`: stamp `lastCheck` only; the history is untouched
and in particular never created here. -/
def recordFailureC (c : Checker) (host : Host) (now : Int) : Checker :=
  { c with lastCheck := mapSet c.lastCheck host now }

/-- `Checker.phi`: `0.0` without a `lastCheck` stamp, without a history, or
with an empty history; otherwise the accrual formula on
`(now − lastCheck, mean, stdDev)`. The formula itself —
`−log₁₀(Φ(−y))` with the `σ = 0 ↦ μ/10` substitution, computed by the
repository in `float64` with `math.Erf` and `math.Log10` — is kept as an
abstract parameter `F`; every claim settled here holds for all `F`. -/
def phi (c : Checker) (host : Host) (now : Int) (F : Int → Int → Int → ℚ) : ℚ :=
  match mapFind? c.lastCheck host with
  | none => 0
  | some lastT =>
    match mapFind? c.histories host with
    | none => 0
    | some hist =>
      if hist.count = 0 then 0
      else F (now - lastT) hist.mean hist.stdDev

/-- `Checker.IsHealthy`: strict comparison of `phi` against the threshold. -/
def isHealthy (c : Checker) (host : Host) (now : Int) (F : Int → Int → Int → ℚ) : Bool :=
  decide (phi c host now F < c.phiThreshold)

/-- A record operation on the checker: the effect of one probe. -/
inductive CheckOp where
  | success (host : Host) (dur : Int) (now : Int)
  | failure (host : Host) (now : Int)
  deriving DecidableEq

/-- Apply one record operation. -/
def applyOp (c : Checker) : CheckOp → Checker
  | .success h d t => recordSuccessC c h d t
  | .failure h t => recordFailureC c h t

/-- Apply a sequence of record operations in order. -/
def applyOps (c : Checker) (ops : List CheckOp) : Checker := ops.foldl applyOp c

/-- The hosts receiving at least one `recordSuccess` in `ops`. -/
def successHosts (ops : List CheckOp) : List Host :=
  ops.filterMap fun op => match op with
    | .success h _ _ => some h
    | .failure _ _ => none

theorem recordSuccessC_histories_ne (c : Checker) (h' : Host) (d t : Int)
    (host : Host) (hne : host ≠ h') :
    mapFind? (recordSuccessC c h' d t).histories host = mapFind? c.histories host := by
  unfold recordSuccessC
  cases h1 : mapFind? c.histories h' with
  | some hist =>
    simp only [h1]
    exact mapFind?_mapSet_ne _ _ _ _ hne
  | none =>
    simp only [h1, mapFind?_mapSet_self]
    rw [mapFind?_mapSet_ne _ _ _ _ hne, mapFind?_mapSet_ne _ _ _ _ hne]

theorem applyOps_histories_of_not_success (ops : List CheckOp) (c : Checker)
    (host : Host) (h : host ∉ successHosts ops) :
    mapFind? (applyOps c ops).histories host = mapFind? c.histories host := by
  induction ops generalizing c with
  | nil => rfl
  | cons op ops ih =>
    cases op with
    | failure h' t =>
      have hop : host ∉ successHosts ops := by
        simpa [successHosts] using h
      rw [show applyOps c (CheckOp.failure h' t :: ops) =
        applyOps (recordFailureC c h' t) ops from rfl]
      rw [ih _ hop]
      rfl
    | success h' d t =>
      have hs : host ≠ h' ∧ host ∉ successHosts ops := by
        constructor
        · intro he
          exact h (by simp [successHosts, he])
        · intro hm
          apply h
          simp only [successHosts, List.filterMap_cons] at *
          exact List.mem_cons_of_mem _ hm
      rw [show applyOps c (CheckOp.success h' d t :: ops) =
        applyOps (recordSuccessC c h' d t) ops from rfl]
      rw [ih _ hs.2]
      exact recordSuccessC_histories_ne c h' d t host hs.1

theorem recordSuccessC_phiThreshold (c : Checker) (h' : Host) (d t : Int) :
    (recordSuccessC c h' d t).phiThreshold = c.phiThreshold := by
  unfold recordSuccessC
  cases h1 : mapFind? c.histories h' with
  | some hist => simp only [h1]
  | none =>
    simp only [h1, mapFind?_mapSet_self]

theorem applyOps_phiThreshold (ops : List CheckOp) (c : Checker) :
    (applyOps c ops).phiThreshold = c.phiThreshold := by
  induction ops generalizing c with
  | nil => rfl
  | cons op ops ih =>
    cases op with
    | failure h' t =>
      rw [show applyOps c (CheckOp.failure h' t :: ops) =
        applyOps (recordFailureC c h' t) ops from rfl, ih]
      rfl
    | success h' d t =>
      rw [show applyOps c (CheckOp.success h' d t :: ops) =
        applyOps (recordSuccessC c h' d t) ops from rfl, ih]
      exact recordSuccessC_phiThreshold c h' d t

/-- C9: for a host never passed to `recordSuccess` — no matter how many
`recordFailure` calls it received and whatever the elapsed time — `phi`
returns `0.0` and `IsHealthy` returns `true`; failures alone can never make a
host unhealthy. Quantified over every accrual formula `F`. -/
theorem phi_zero_without_success (interval : Int) (th : ℚ) (ops : List CheckOp)
    (host : Host) (now : Int) (F : Int → Int → Int → ℚ)
    (h : host ∉ successHosts ops) :
    phi (applyOps (healthNew interval th) ops) host now F = 0 ∧
    isHealthy (applyOps (healthNew interval th) ops) host now F = true := by
  have hh : mapFind? (applyOps (healthNew interval th) ops).histories host = none := by
    rw [applyOps_histories_of_not_success ops _ host h]
    rfl
  have hphi : phi (applyOps (healthNew interval th) ops) host now F = 0 := by
    unfold phi
    cases hlc : mapFind? (applyOps (healthNew interval th) ops).lastCheck host with
    | none => rfl
    | some t0 => simp only [hh]
  refine ⟨hphi, ?_⟩
  unfold isHealthy
  rw [hphi, applyOps_phiThreshold]
  unfold healthNew
  simp only [decide_eq_true_eq]
  split_ifs with h1
  · norm_num
  · push_neg at h1
    exact h1

/-- Witness for `phi_zero_without_success`: a host that has only failed
probes still reports `phi = 0` and healthy. -/
theorem phi_zero_without_success_witness :
    (([98] : Host) ∉ successHosts [CheckOp.failure [98] 5, CheckOp.failure [98] 11]) ∧
    (phi (applyOps (healthNew 5 8) [CheckOp.failure [98] 5, CheckOp.failure [98] 11])
        [98] 99 (fun _ _ _ => 37) = 0 ∧
      isHealthy (applyOps (healthNew 5 8) [CheckOp.failure [98] 5, CheckOp.failure [98] 11])
        [98] 99 (fun _ _ _ => 37) = true) :=
  ⟨by decide,
    phi_zero_without_success 5 8 [CheckOp.failure [98] 5, CheckOp.failure [98] 11]
      [98] 99 (fun _ _ _ => 37) (by decide)⟩

/-- Witness for `recordSuccess_stats` at the concrete sample list `[2, 4]`. -/
theorem recordSuccess_stats_witness :
    (([2, 4] : List Int) ≠ [] ∧ ([2, 4] : List Int).length ≤ sampleSize ∧
      (∀ d ∈ ([2, 4] : List Int), 0 ≤ d)) ∧
    ((recordSuccList [2, 4]).count = ([2, 4] : List Int).length ∧
      (([2, 4] : List Int).length : Int) * (recordSuccList [2, 4]).mean ≤ ([2, 4] : List Int).sum ∧
      ([2, 4] : List Int).sum < (([2, 4] : List Int).length : Int) * ((recordSuccList [2, 4]).mean + 1) ∧
      (((recordSuccList [2, 4]).stdDev : Int) : ℚ) ^ 2 ≤ popVariance [2, 4] (recordSuccList [2, 4]).mean ∧
      popVariance [2, 4] (recordSuccList [2, 4]).mean < ((((recordSuccList [2, 4]).stdDev : Int) : ℚ) + 1) ^ 2) :=
  ⟨⟨by decide, by decide, by decide⟩,
    recordSuccess_stats [2, 4] (by decide) (by decide) (by decide)⟩

/-! ### Dispatcher startup and detector loop (claim C3) -/

/-- Decimal digit bytes of `n` (the `%d` of `fmt.Sprintf`), with explicit
fuel so the definition evaluates inside the kernel. -/
def natDigitsAux : Nat → Nat → List Nat
  | 0, _ => []
  | fuel + 1, n => if n < 10 then [48 + n] else natDigitsAux fuel (n / 10) ++ [48 + n % 10]

/-- Decimal digit bytes of `n`. -/
def natDigits (n : Nat) : List Nat := natDigitsAux (n + 1) n

/-- The registry key `fmt.Sprintf("%s:%d", host, port)`. -/
def hostPortKey (host : Host) (port : Nat) : Host := host ++ [58] ++ natDigits port

/-- One backend stanza of the configuration. -/
structure BackendCfg where
  host : Host
  port : Nat
  weight : Nat
  deriving DecidableEq

/-- The dispatch-relevant state assembled by `balancer.New` and mutated by the
detector loop: the health checker, the registry of health flags keyed by
`"host:port"`, and the hash ring. (The connection pool `New` also creates is
modelled separately by `Pool`; no health-path code touches it.) -/
structure SysState where
  checker : Checker
  backends : List (Host × Bool)
  ring : ConsistentHasher

/-- `balancer.New`: a fresh checker from the configured interval and
threshold, every configured backend registered healthy under its
`"host:port"` key, and every backend host added to the ring. No host is ever
registered with the checker. -/
def balancerNew (backends : List BackendCfg) (interval : Int) (th : ℚ) : SysState :=
  { checker := healthNew interval th,
    backends := backends.foldl (fun m b => mapSet m (hostPortKey b.host b.port) true) [],
    ring := backends.foldl (fun r b => ringAdd r b.host b.weight) hashingNew }

/-- `balancer.updateBackendHealth`: flip the flag of a registered backend,
ignore unknown hosts. -/
def updateBackendHealth (bs : List (Host × Bool)) (host : Host) (healthy : Bool) :
    List (Host × Bool) :=
  match mapFind? bs host with
  | some _ => mapSet bs host healthy
  | none => bs

/-- The host snapshot taken by `Checker.checkAll`: the keys of `histories`. -/
def checkAllHosts (c : Checker) : List Host := c.histories.map Prod.fst

/-- One detector tick: probe every host of the `checkAll` snapshot — the
oracle `orc` giving `some duration` on success, `none` on failure — record
the outcome and invoke the update callback with the probe result. -/
def sysTick (orc : Host → Option Int) (now : Int) (s : SysState) : SysState :=
  (checkAllHosts s.checker).foldl
    (fun s h =>
      match orc h with
      | some d => { s with checker := recordSuccessC s.checker h d now,
                           backends := updateBackendHealth s.backends h true }
      | none => { s with checker := recordFailureC s.checker h now,
                         backends := updateBackendHealth s.backends h false }) s

/-- Iterated detector ticks. -/
def sysTicks (orc : Host → Option Int) (now : Int) : Nat → SysState → SysState
  | 0, s => s
  | n + 1, s => sysTicks orc now n (sysTick orc now s)

/-- The configuration of the failing scenario: one backend `"b":9001`. -/
def c3Backends : List BackendCfg := [⟨[98], 9001, 1⟩]

/-- C3 (code bug): `checkAll` snapshots the keys of `histories`, which only
`recordSuccess` — itself reachable only from `checkAll` — ever populates, and
`balancer.New` never registers any host with the checker. Hence the set of
hosts probed on every tick is empty, not the configured backend set: no
callback ever fires and every health flag keeps its initial `true`, even
when every probe of the configured backend would fail. -/
theorem detector_never_probes :
    (∀ (bs : List BackendCfg) (interval : Int) (th : ℚ) (n : Nat)
        (orc : Host → Option Int) (now : Int),
      checkAllHosts (sysTicks orc now n (balancerNew bs interval th)).checker = [] ∧
      (sysTicks orc now n (balancerNew bs interval th)).backends =
        (balancerNew bs interval th).backends) ∧
    mapFind? (balancerNew c3Backends 5 8).backends (hostPortKey [98] 9001) = some true := by
  constructor
  · intro bs interval th n orc now
    have hid : ∀ s : SysState, s.checker.histories = [] → sysTick orc now s = s := by
      intro s hs
      unfold sysTick checkAllHosts
      rw [hs]
      rfl
    have hinit : (balancerNew bs interval th).checker.histories = [] := rfl
    have hfix : sysTicks orc now n (balancerNew bs interval th) = balancerNew bs interval th := by
      induction n with
      | zero => rfl
      | succ n ih =>
        show sysTicks orc now n (sysTick orc now (balancerNew bs interval th)) = _
        rw [hid _ hinit]
        exact ih
    rw [hfix]
    exact ⟨rfl, rfl⟩
  · decide

/-! ### The per-connection handler (claim C6) -/

/-- Observable state of one `handleConnection` instance: whether each of the
two copy goroutines has terminated (sent on `errCh`, capacity 2), how many
completions the handler has received, and whether the deferred
`pool.Put(backendConn)` has run. -/
structure HandlerState where
  sent1 : Bool
  sent2 : Bool
  received : Nat
  putDone : Bool
  deriving DecidableEq, Repr

/-- Number of completions sent so far. -/
def sentCount (s : HandlerState) : Nat :=
  (if s.sent1 then 1 else 0) + (if s.sent2 then 1 else 0)

/-- Interleaving steps of `handleConnection`: either copy task may terminate
at any time (sending on the buffered channel), and the handler — blocked on a
single `<-errCh` — returns and releases the backend connection as soon as ONE
completion is available. -/
inductive HandlerStep : HandlerState → HandlerState → Prop
  | finish1 (s : HandlerState) : s.sent1 = false →
      HandlerStep s { s with sent1 := true }
  | finish2 (s : HandlerState) : s.sent2 = false →
      HandlerStep s { s with sent2 := true }
  | recvRelease (s : HandlerState) : s.putDone = false → s.received < sentCount s →
      HandlerStep s { s with received := s.received + 1, putDone := true }

/-- The handler's initial state: both copies running, nothing received. -/
def handlerInit : HandlerState := ⟨false, false, 0, false⟩

/-- States reachable by some interleaving of one handler instance. -/
inductive HandlerReach : HandlerState → Prop
  | init : HandlerReach handlerInit
  | step (s t : HandlerState) : HandlerReach s → HandlerStep s t → HandlerReach t

/-- C6 counterexample: it is not true that the release happens only after
both copy tasks have terminated — the state where the first copy finished,
the handler received that single completion and released, while the second
copy is still running, is reachable. -/
theorem release_before_second_copy :
    ¬ (∀ s : HandlerState, HandlerReach s → s.putDone = true →
        s.sent1 = true ∧ s.sent2 = true) := by
  intro hall
  have h1 : HandlerStep handlerInit ⟨true, false, 0, false⟩ :=
    HandlerStep.finish1 handlerInit rfl
  have h2 : HandlerStep ⟨true, false, 0, false⟩ ⟨true, false, 1, true⟩ :=
    HandlerStep.recvRelease ⟨true, false, 0, false⟩ rfl (by decide)
  have hr : HandlerReach ⟨true, false, 1, true⟩ :=
    HandlerReach.step _ _ (HandlerReach.step _ _ HandlerReach.init h1) h2
  have := (hall _ hr rfl).2
  cases this

/-- C6 amended: the release happens after at least one copy task has
terminated — a completion can only be received after it was sent — but may
precede the termination of the other copy task. -/
theorem release_after_first_copy (s : HandlerState) (h : HandlerReach s)
    (hp : s.putDone = true) : s.sent1 = true ∨ s.sent2 = true := by
  induction h with
  | init => cases hp
  | step s t _ hstep ih =>
    cases hstep with
    | finish1 hs => exact Or.inl rfl
    | finish2 hs => exact Or.inr rfl
    | recvRelease h1 h2 =>
      unfold sentCount at h2
      by_cases hs1 : s.sent1 = true
      · exact Or.inl hs1
      · right
        show s.sent2 = true
        by_cases hs2 : s.sent2 = true
        · exact hs2
        · exfalso
          rw [Bool.not_eq_true] at hs1 hs2
          rw [hs1, hs2] at h2
          simp at h2

/-- Witness for `release_after_first_copy` at a concrete reachable state. -/
theorem release_after_first_copy_witness :
    (⟨true, false, 1, true⟩ : HandlerState).sent1 = true ∨
      (⟨true, false, 1, true⟩ : HandlerState).sent2 = true :=
  release_after_first_copy ⟨true, false, 1, true⟩
    (HandlerReach.step _ _
      (HandlerReach.step _ _ HandlerReach.init (HandlerStep.finish1 handlerInit rfl))
      (HandlerStep.recvRelease ⟨true, false, 0, false⟩ rfl (by decide)))
    rfl

/-! ### Ring removal and coverage (claims C2, C4) -/

/-- The ring of the C2 failing input: host `"a"` (weight 1) added, then
removed. -/
def c2Ring : ConsistentHasher := ringRemove (ringAdd hashingNew [97] 1) [97]

/-- The ring of the C4 failing input: hosts `"a"` and `"b"` (weight 1 each)
added, then `"a"` removed, leaving membership `{"b"}`. -/
def c4Ring : ConsistentHasher :=
  ringRemove (ringAdd (ringAdd hashingNew [97] 1) [98] 1) [97]

/-- C2 (code bug): after `Add("a", 1)` then `Remove("a")`, the weight record
and the hash-map entries of `"a"` are gone, yet the virtual-node hash of
`"a" + rune(0)` is still in the sorted node list: `Remove` deletes from the
map before filtering the node list with `c.hash[v] != node`, so the deleted
entries read as the zero value `""` and every orphaned node is kept —
removal is partial, contradicting the claim. -/
theorem ringRemove_leaves_orphan_nodes :
    crc32 ([97] ++ utf8Encode 0) ∈ c2Ring.nodes ∧
    mapFind? c2Ring.hash (crc32 ([97] ++ utf8Encode 0)) = none ∧
    c2Ring.weights = [] := by
  decide

/-- C4 (code bug): with membership `{"b"}` after `Add("a",1)`, `Add("b",1)`,
`Remove("a")`, the key `"a\x00"` hashes exactly onto one of `"a"`'s orphaned
virtual nodes, and `Get` returns the empty string — not a host of the
non-empty membership. -/
theorem ringGet_not_in_membership :
    c4Ring.weights = [([98], 1)] ∧ ringGet c4Ring [97, 0] = [] := by
  decide

end LB
